import Mathlib

/-!
Verification model of `dbms/src/Processors/Transforms/MergingAggregatedMemoryEfficientTransform.cpp`.

The file shallowly embeds `GroupingAggregatedTransform` (the grouping router),
`MergingAggregatedBucketTransform::transform` (the per-bucket merge step) and the
pipeline-port environment they run in.  Column payloads are opaque: a batch is a
natural-number payload plus its out-of-band `ChunkInfo` tag, which is all the routing
code ever inspects.  The two external collaborators used by the code but not part of
this file (`Aggregator::convertBlockToTwoLevel` and `Aggregator::mergeBlocks`) are
passed in as abstract functions.
-/

namespace DB

/-- The two `ChunkInfo` variants that occur in the source: `AggregatedChunkInfo`
(bucket number and overflow flag attached by producers) and `ChunksToMerge`
(the synthetic group emitted by the router; member chunks are tracked by payload). -/
inductive ChunkInfo where
  | AggregatedChunkInfo (bucket_num : Int) (is_overflows : Bool)
  | ChunksToMerge (chunk_payloads : List Nat) (bucket_num : Int) (is_overflows : Bool)
deriving DecidableEq, Repr

/-- A chunk: opaque column payload plus optional `ChunkInfo`. -/
structure Chunk where
  payload : Nat
  info : Option ChunkInfo
deriving DecidableEq, Repr

/-- Modelled from the spec: the pipeline runtime's input-port contract (spec section 6).
A port holds the not-yet-pulled chunks in arrival order, plus the upstream-finished
flag.  `isFinished` holds when upstream finished and no data is pending; `pull` takes
the oldest chunk. -/
structure InputPort where
  buffer : List Chunk
  finished : Bool
deriving DecidableEq, Repr

def defaultPort : InputPort := ⟨[], false⟩

def isFinishedPort (p : InputPort) : Bool := p.finished && p.buffer.isEmpty

/-- Ghost data recorded (without influencing the computation) at the moment a
numbered bucket is released: which map bucket was popped, and snapshots of
`last_bucket_number` and of per-input liveness (`true` = input not finished). -/
structure GhostRelease where
  popped : Int
  lasts : List Int
  live : List Bool
deriving DecidableEq, Repr

/-- One chunk pushed to the output port, together with the ghost release record
(`none` for single-level and overflow groups). -/
structure TraceEntry where
  chunk : Chunk
  ghost : Option GhostRelease
deriving DecidableEq, Repr

/-- Full state: the `GroupingAggregatedTransform` members visible in the source file,
its input ports, the output side (downstream-readiness and finished flags) and the
trace of everything pushed so far.  `expect_several_chunks_for_single_bucket_per_source`
is declared in the header (not under `src/`), so it is kept as an arbitrary
configuration input of the run. -/
structure GState where
  num_inputs : Nat
  expect_several_chunks_for_single_bucket_per_source : Bool
  inputs : List InputPort
  output_finished : Bool
  output_can_push : Bool
  trace : List TraceEntry
  last_bucket_number : List Int
  read_from_input : List Bool
  read_from_all_inputs : Bool
  chunks : List (Int × List Chunk)
  has_two_level : Bool
  all_inputs_finished : Bool
  current_bucket : Int
  next_bucket_to_push : Int
  single_level_chunks : List Chunk
  overflow_chunks : List Chunk
deriving DecidableEq, Repr

def portOf (s : GState) (i : Nat) : InputPort := s.inputs.getD i defaultPort

def lastOf (s : GState) (i : Nat) : Int := s.last_bucket_number.getD i (-1)

/-- Lookup in the `std::map<Int32, Chunks>`. -/
def mapFind : List (Int × List Chunk) → Int → Option (List Chunk)
  | [], _ => none
  | (k, v) :: rest, b => if k = b then some v else mapFind rest b

/-- Erase of one key of the `std::map`. -/
def mapErase : List (Int × List Chunk) → Int → List (Int × List Chunk)
  | [], _ => []
  | (k, v) :: rest, b => if k = b then rest else (k, v) :: mapErase rest b

/-- Source operation `chunks[bucket].emplace_back(chunk)`: append to the bucket's list, creating the
entry when absent. -/
def mapAppend : List (Int × List Chunk) → Int → Chunk → List (Int × List Chunk)
  | [], b, c => [(b, [c])]
  | (k, v) :: rest, b, c =>
    if k = b then (k, v ++ [c]) :: rest else (k, v) :: mapAppend rest b c

/-- Source function `GroupingAggregatedTransform::addChunk` (lines 221-244): route a pulled
chunk by its tag; a missing tag or a non-`AggregatedChunkInfo` tag throws. -/
def addChunk (s : GState) (c : Chunk) (input : Nat) : Except String GState :=
  match c.info with
  | none => Except.error "Chunk info was not set for chunk in GroupingAggregatedTransform."
  | some (ChunkInfo.ChunksToMerge _ _ _) =>
      Except.error "Chunk should have AggregatedChunkInfo in GroupingAggregatedTransform."
  | some (ChunkInfo.AggregatedChunkInfo bucket is_ov) =>
      if is_ov then
        Except.ok { s with overflow_chunks := s.overflow_chunks ++ [c] }
      else if bucket < 0 then
        Except.ok { s with single_level_chunks := s.single_level_chunks ++ [c] }
      else
        Except.ok { s with chunks := mapAppend s.chunks bucket c,
                           has_two_level := true,
                           last_bucket_number := s.last_bucket_number.set input bucket }

/-- Source function `GroupingAggregatedTransform::pushData` (lines 51-63): wrap the given chunks into
one `ChunksToMerge`-tagged chunk and push it to the output port.  The optional ghost
release record is threaded through untouched. -/
def pushData (s : GState) (cs : List Chunk) (bucket : Int) (is_ov : Bool)
    (g : Option GhostRelease) : GState :=
  let entry : TraceEntry :=
    ⟨⟨0, some (ChunkInfo.ChunksToMerge (cs.map Chunk.payload) bucket is_ov)⟩, g⟩
  { s with trace := s.trace ++ [entry], output_can_push := false }

/-- The scan of `tryPushTwoLevelData`'s `for` loop over the range
`[next_bucket_to_push, current_bucket)`: skip absent buckets, erase empty entries,
stop at the first non-empty entry.  `steps` is the length of that range, so the scan
is exactly the portion of the loop whose guard is `next_bucket_to_push < current_bucket`. -/
def scanGo : Nat → Int → GState → GState × Option (Int × List Chunk)
  | 0, _, s => (s, none)
  | Nat.succ steps, j, s =>
    match mapFind s.chunks j with
    | none => scanGo steps (j + 1) { s with next_bucket_to_push := j + 1 }
    | some cc =>
      if cc.isEmpty then
        scanGo steps (j + 1)
          { s with chunks := mapErase s.chunks j, next_bucket_to_push := j + 1 }
      else ({ s with next_bucket_to_push := j }, some (j, cc))

/-- Source function `GroupingAggregatedTransform::tryPushTwoLevelData` (lines 65-86).  The loop guard
is `next_bucket_to_push < current_bucket || (all_inputs_finished && chunks.empty())`;
once the scan over `[next_bucket_to_push, current_bucket)` is exhausted without a
push, the second disjunct keeps the loop running forever whenever the remaining map
is empty and all inputs are finished — that divergence is the `none` result.
A successful push is tagged with `current_bucket` (as in the source) and carries the
ghost record of the popped bucket. -/
def tryPushTwoLevelData (s : GState) : Option (GState × Bool) :=
  let steps := (s.current_bucket - s.next_bucket_to_push).toNat
  match scanGo steps s.next_bucket_to_push s with
  | (s', some (b, cc)) =>
      let g : GhostRelease :=
        ⟨b, s'.last_bucket_number, s'.inputs.map (fun p => !(isFinishedPort p))⟩
      some (pushData { s' with chunks := mapErase s'.chunks b, next_bucket_to_push := b }
              cc s'.current_bucket false (some g), true)
  | (s', none) =>
      if s'.all_inputs_finished && s'.chunks.isEmpty then none
      else some (s', false)

/-- Source function `tryPushSingleLevelData` (lines 88-95).  The source passes `single_level_chunks`
to `pushData` by value without `std::move`, so the accumulator is left unchanged. -/
def tryPushSingleLevelData (s : GState) : GState × Bool :=
  if s.single_level_chunks.isEmpty then (s, false)
  else (pushData s s.single_level_chunks (-1) false none, true)

/-- Source function `tryPushOverflowData` (lines 97-104); like the single-level case, the accumulator
is passed without `std::move` and is left unchanged. -/
def tryPushOverflowData (s : GState) : GState × Bool :=
  if s.overflow_chunks.isEmpty then (s, false)
  else (pushData s s.overflow_chunks (-1) true none, true)

/-- The `need_input` lambda of `prepare` (lines 148-154). -/
def needInput (s : GState) (input_num : Nat) : Bool :=
  if lastOf s input_num < s.current_bucket then true
  else s.expect_several_chunks_for_single_bucket_per_source
        && (lastOf s input_num == s.current_bucket)

/-- Source function `GroupingAggregatedTransform::readFromAllInputs` (lines 27-49), iterating inputs
`i, i+1, ...` with `rem` inputs left.  A needed input without data returns early,
leaving `read_from_all_inputs` unset. -/
def rfaiGo : Nat → Nat → GState → Except String GState
  | 0, _, s => Except.ok { s with read_from_all_inputs := true }
  | Nat.succ rem, i, s =>
    let p := portOf s i
    if isFinishedPort p then rfaiGo rem (i + 1) s
    else if s.read_from_input.getD i false then rfaiGo rem (i + 1) s
    else match p.buffer with
      | [] => Except.ok s
      | c :: rest =>
        let s1 := { s with inputs := s.inputs.set i ⟨rest, p.finished⟩,
                           read_from_input := s.read_from_input.set i true }
        match addChunk s1 c i with
        | Except.error m => Except.error m
        | Except.ok s2 => rfaiGo rem (i + 1) s2

def readFromAllInputs (s : GState) : Except String GState := rfaiGo s.num_inputs 0 s

inductive Status where
  | Finished | NeedData | PortFull | Ready
deriving DecidableEq, Repr

/-- Result of one pass of `prepare`'s reading loop over all inputs. -/
inductive PassOut where
  | ready (s : GState)
  | done (s : GState) (fin nd : Bool)
  | failed (msg : String)
deriving DecidableEq, Repr

/-- One pass over the inputs inside `prepare`'s `for (;; ++current_bucket)` loop
(lines 159-189), starting at input `i` with `rem` inputs left, threading the
`finished` and `need_data` locals. -/
def passGo : Nat → Nat → Bool → Bool → GState → PassOut
  | 0, _, fin, nd, s => PassOut.done s fin nd
  | Nat.succ rem, i, fin, nd, s =>
    let p := portOf s i
    if isFinishedPort p then passGo rem (i + 1) fin nd s
    else if !(needInput s i) then passGo rem (i + 1) false nd s
    else match p.buffer with
      | [] => passGo rem (i + 1) false true s
      | c :: rest =>
        let s1 := { s with inputs := s.inputs.set i ⟨rest, p.finished⟩ }
        match addChunk s1 c i with
        | Except.error m => PassOut.failed m
        | Except.ok s2 =>
          if s2.has_two_level && !s2.single_level_chunks.isEmpty then PassOut.ready s2
          else passGo rem (i + 1) false (nd || needInput s2 i) s2

inductive LoopOut where
  | broke (s : GState)
  | needData (s : GState)
  | ready (s : GState)
  | failed (msg : String)
  | nofuel
deriving DecidableEq, Repr

/-- The source `for (;; ++current_bucket)` loop of `prepare` (lines 157-199), fueled: every real
execution of the loop terminates (each round either pulls buffered data, returns, or
advances `current_bucket` beyond every live input's last bucket), and the machine
below quantifies over the fuel, so `nofuel` never hides behaviour. -/
def outerLoop : Nat → GState → LoopOut
  | 0, _ => LoopOut.nofuel
  | Nat.succ fuel, s =>
    match passGo s.num_inputs 0 true false s with
    | PassOut.failed m => LoopOut.failed m
    | PassOut.ready s' => LoopOut.ready s'
    | PassOut.done s' fin nd =>
      if fin then LoopOut.broke { s' with all_inputs_finished := true }
      else if nd then LoopOut.needData s'
      else outerLoop fuel { s' with current_bucket := s'.current_bucket + 1 }

inductive PrepOutcome where
  | ok (s : GState) (st : Status)
  | errored (msg : String)
  | hang
  | nofuel
deriving DecidableEq, Repr

/-- Port close `input.close()` as invoked by the router itself on cancellation: the port is
finished for both sides and pending data is discarded. -/
def closePort (_p : InputPort) : InputPort := ⟨[], true⟩

/-- Lines 201-218 of `prepare`: after the reading loop broke with all inputs
finished, try to push remaining two-level / single-level data, then overflows,
otherwise finish the output. -/
def prepareTail (s : GState) (pushed : Bool) : PrepOutcome :=
  match (if pushed then some (s, true)
         else if s.has_two_level then tryPushTwoLevelData s
         else some (tryPushSingleLevelData s)) with
  | none => PrepOutcome.hang
  | some (s2, pushed2) =>
    let r := if pushed2 then (s2, true) else tryPushOverflowData s2
    if r.2 then PrepOutcome.ok r.1 Status.PortFull
    else PrepOutcome.ok { r.1 with output_finished := true } Status.Finished

/-- Lines 129-218 of `prepare` (after the initial-read phase). -/
def prepareCore (fuel : Nat) (s : GState) : PrepOutcome :=
  if s.has_two_level && !s.single_level_chunks.isEmpty then PrepOutcome.ok s Status.Ready
  else if !s.output_can_push then PrepOutcome.ok s Status.PortFull
  else
    match (if s.has_two_level then tryPushTwoLevelData s else some (s, false)) with
    | none => PrepOutcome.hang
    | some (s1, pushed) =>
      match outerLoop fuel s1 with
      | LoopOut.failed m => PrepOutcome.errored m
      | LoopOut.nofuel => PrepOutcome.nofuel
      | LoopOut.ready s2 => PrepOutcome.ok s2 Status.Ready
      | LoopOut.needData s2 => PrepOutcome.ok s2 Status.NeedData
      | LoopOut.broke s2 => prepareTail s2 pushed

/-- Source function `GroupingAggregatedTransform::prepare` (lines 106-219). -/
def prepare (fuel : Nat) (s : GState) : PrepOutcome :=
  if s.output_finished then
    PrepOutcome.ok
      { s with inputs := s.inputs.map closePort, chunks := [], last_bucket_number := [] }
      Status.Finished
  else
    match (if s.read_from_all_inputs then Except.ok s else readFromAllInputs s) with
    | Except.error m => PrepOutcome.errored m
    | Except.ok s1 =>
      if !s1.read_from_all_inputs then PrepOutcome.ok s1 Status.NeedData
      else prepareCore fuel s1

/-- Source function `GroupingAggregatedTransform::work` (lines 246-261): convert the newest
single-level chunk to two-level form via the external collaborator `split`
(`Aggregator::convertBlockToTwoLevel`) and merge the resulting per-bucket chunks
into the map.  The resulting chunks carry no `ChunkInfo`, as in the source. -/
def work (split : Nat → List (Int × Nat)) (s : GState) : GState :=
  match s.single_level_chunks.getLast? with
  | none => s
  | some c =>
    let s1 := { s with single_level_chunks := s.single_level_chunks.dropLast }
    (split c.payload).foldl
      (fun acc bc => { acc with chunks := mapAppend acc.chunks bc.1 ⟨bc.2, none⟩ }) s1

/-- Initial state of the router (constructor, lines 17-25) with open, empty ports. -/
def initState (n : Nat) (expect : Bool) : GState :=
  { num_inputs := n
    expect_several_chunks_for_single_bucket_per_source := expect
    inputs := List.replicate n defaultPort
    output_finished := false
    output_can_push := false
    trace := []
    last_bucket_number := List.replicate n (-1)
    read_from_input := List.replicate n false
    read_from_all_inputs := false
    chunks := []
    has_two_level := false
    all_inputs_finished := false
    current_bucket := 0
    next_bucket_to_push := 0
    single_level_chunks := []
    overflow_chunks := [] }

/-- The bucket of a two-level (non-overflow, `bucket >= 0`) producer chunk. -/
def twoLevelBucketOf (c : Chunk) : Option Int :=
  match c.info with
  | some (ChunkInfo.AggregatedChunkInfo b o) => if o = false ∧ 0 ≤ b then some b else none
  | _ => none

/-- Environment action: upstream producer `i` appends a chunk to its port. -/
def pushEv (s : GState) (i : Nat) (c : Chunk) : GState :=
  { s with inputs := s.inputs.set i ⟨(portOf s i).buffer ++ [c], (portOf s i).finished⟩ }

/-- Environment action: upstream producer `i` finishes (pending data stays pulled-able). -/
def closeEv (s : GState) (i : Nat) : GState :=
  { s with inputs := s.inputs.set i ⟨(portOf s i).buffer, true⟩ }

/-- One step of the router's environment-interleaved execution.  `envPush` carries the
claims' run hypothesis that each producer's bucket numbers are non-decreasing: a new
two-level chunk's bucket is at least every bucket already pulled from that producer
(recorded in `last_bucket_number`) and every two-level bucket still buffered on it. -/
inductive Step (split : Nat → List (Int × Nat)) : GState → GState → Prop where
  | envPush (s : GState) (i : Nat) (c : Chunk) (b : Int) (o : Bool)
      (hi : i < s.num_inputs)
      (hopen : (portOf s i).finished = false)
      (htag : c.info = some (ChunkInfo.AggregatedChunkInfo b o))
      (hmono : o = false → 0 ≤ b →
        lastOf s i ≤ b ∧ ∀ x ∈ ((portOf s i).buffer.filterMap twoLevelBucketOf), x ≤ b) :
      Step split s (pushEv s i c)
  | envClose (s : GState) (i : Nat) : Step split s (closeEv s i)
  | envAllowPush (s : GState) : Step split s { s with output_can_push := true }
  | envFinishOutput (s : GState) : Step split s { s with output_finished := true }
  | prep (s : GState) (fuel : Nat) (s' : GState) (st : Status)
      (h : prepare fuel s = PrepOutcome.ok s' st) : Step split s s'
  | wrk (s : GState) : Step split s (work split s)

/-- Reachability from the freshly constructed router through any interleaving of
environment actions, `prepare` invocations and `work` invocations. -/
def Reachable (split : Nat → List (Int × Nat)) (s0 s : GState) : Prop :=
  Relation.ReflTransGen (Step split) s0 s

/-- Source function `MergingAggregatedBucketTransform::transform` (lines 270-288): fails unless the
input chunk carries a `ChunksToMerge` tag; otherwise folds the member batches via the
external merge collaborator and clears the tag.  An `Except.error` result carries no
output chunk. -/
def bucketTransform (mergeBlocks : List Nat → Bool → Nat) (final : Bool)
    (c : Chunk) : Except String Chunk :=
  match c.info with
  | some (ChunkInfo.ChunksToMerge ms _ _) => Except.ok ⟨mergeBlocks ms final, none⟩
  | _ => Except.error
      "MergingAggregatedSimpleTransform chunk must have ChunkInfo with type ChunksToMerge."

/-- Spec-side predicate: the chunk carries the producer tag (`PartialResultTag`). -/
def specPartialTagged (c : Chunk) : Bool :=
  match c.info with
  | some (ChunkInfo.AggregatedChunkInfo _ _) => true
  | _ => false

/-- Spec-side predicate: the chunk carries the group tag (`MergeGroupTag`). -/
def specMergeTagged (c : Chunk) : Bool :=
  match c.info with
  | some (ChunkInfo.ChunksToMerge _ _ _) => true
  | _ => false

/-- Concrete run events, mirroring the `Step` constructors, for evaluating the model
on explicit inputs. -/
inductive Ev where
  | push (i : Nat) (c : Chunk)
  | close (i : Nat)
  | allowPush
  | finishOut
  | prep (fuel : Nat)
  | wrk
deriving DecidableEq, Repr

def prepOutState : PrepOutcome → Option GState
  | PrepOutcome.ok s _ => some s
  | _ => none

def prepOutStatus : PrepOutcome → Option Status
  | PrepOutcome.ok _ st => some st
  | _ => none

def applyEv (split : Nat → List (Int × Nat)) : Ev → GState → Option GState
  | Ev.push i c, s => some (pushEv s i c)
  | Ev.close i, s => some (closeEv s i)
  | Ev.allowPush, s => some { s with output_can_push := true }
  | Ev.finishOut, s => some { s with output_finished := true }
  | Ev.wrk, s => some (work split s)
  | Ev.prep fuel, s => prepOutState (prepare fuel s)

def execEvs (split : Nat → List (Int × Nat)) : List Ev → GState → Option GState
  | [], s => some s
  | e :: es, s =>
    match applyEv split e s with
    | none => none
    | some s' => execEvs split es s'

/-- A trivial stand-in for the split collaborator, used on runs without conversions. -/
def split0 : Nat → List (Int × Nat) := fun _ => []

/-- A producer chunk for bucket `b` with payload `pay`. -/
def cB (pay : Nat) (b : Int) : Chunk := ⟨pay, some (ChunkInfo.AggregatedChunkInfo b false)⟩

/-- A producer overflow chunk with payload `pay`. -/
def cOv (pay : Nat) : Chunk := ⟨pay, some (ChunkInfo.AggregatedChunkInfo (-1) true)⟩

def exceptToOption {α : Type} : Except String α → Option α
  | Except.ok a => some a
  | Except.error _ => none

/-- Run exhibiting a dropped batch: one producer delivers a bucket-0 chunk and is
already closed when `prepare` first runs. -/
def c1Events : List Ev := [Ev.push 0 (cB 7 0), Ev.close 0, Ev.allowPush, Ev.prep 9]

def c1Final : Option GState := execEvs split0 c1Events (initState 1 false)

/-- Run reaching the state in which all inputs are finished and every accumulator is
empty: one producer sends buckets 0 and 5, goes away, and both buckets get released. -/
def c2Events : List Ev :=
  [Ev.push 0 (cB 7 0), Ev.push 0 (cB 8 5), Ev.allowPush, Ev.prep 9, Ev.close 0,
   Ev.prep 9, Ev.allowPush, Ev.prep 9, Ev.allowPush]

def c2state : GState := (execEvs split0 c2Events (initState 1 false)).getD (initState 1 false)

/-- Run releasing bucket 0 while `current_bucket = 2`: one producer sends buckets 0
and 5 and closes before `prepare` runs. -/
def c3Events : List Ev :=
  [Ev.push 0 (cB 7 0), Ev.push 0 (cB 8 5), Ev.close 0, Ev.allowPush, Ev.prep 9]

def c3Final : Option GState := execEvs split0 c3Events (initState 1 false)

/-- Run emitting the single-level group twice: one producer, one bucket-(-1) chunk,
two drained `prepare` cycles. -/
def c4Events : List Ev :=
  [Ev.push 0 (cB 5 (-1)), Ev.close 0, Ev.allowPush, Ev.prep 9, Ev.allowPush, Ev.prep 9]

def c4Final : Option GState := execEvs split0 c4Events (initState 1 false)

/-- Run emitting the overflow group twice: one producer, one overflow chunk, two
drained `prepare` cycles. -/
def c5Events : List Ev :=
  [Ev.push 0 (cOv 6), Ev.close 0, Ev.allowPush, Ev.prep 9, Ev.allowPush, Ev.prep 9]

def c5Final : Option GState := execEvs split0 c5Events (initState 1 false)

/-- Run with two producers (buckets 0,5 and 1,5) whose two released groups carry the
same bucket number. -/
def c7Events : List Ev :=
  [Ev.push 0 (cB 1 0), Ev.push 1 (cB 2 1), Ev.push 0 (cB 3 5), Ev.push 1 (cB 4 5),
   Ev.close 0, Ev.close 1, Ev.allowPush, Ev.prep 9, Ev.allowPush, Ev.prep 9]

def c7Final : Option GState := execEvs split0 c7Events (initState 2 false)

/-- A router state whose output side has finished while single-level and overflow
batches are still buffered. -/
def c9state : GState :=
  { initState 1 false with
    output_finished := true
    single_level_chunks := [cB 8 (-1)]
    overflow_chunks := [cOv 9] }

/-- States of a run in which bucket 0 is released while both producers are still
live: producers send buckets 0,2 and 1,2 and stay open. -/
def c6s0 : GState := initState 2 false

def c6s1 : GState := pushEv c6s0 0 (cB 10 0)

def c6s2 : GState := pushEv c6s1 1 (cB 11 1)

def c6s3 : GState := pushEv c6s2 0 (cB 12 2)

def c6s4 : GState := pushEv c6s3 1 (cB 13 2)

def c6s5 : GState := { c6s4 with output_can_push := true }

def c6s6 : GState := (prepOutState (prepare 20 c6s5)).getD c6s0

def c6s7 : GState := (prepOutState (prepare 20 c6s6)).getD c6s0

/-- The two-level buckets still buffered on a port, in arrival order. -/
def bufBuckets (p : InputPort) : List Int := p.buffer.filterMap twoLevelBucketOf

/-- Input `i` is live: not yet finished-and-drained. -/
def liveAt (s : GState) (i : Nat) : Prop := isFinishedPort (portOf s i) = false

/-- Fields no transform-side operation changes that matter to the run invariant. -/
def FrameW (s s' : GState) : Prop :=
  s'.num_inputs = s.num_inputs ∧ s'.trace = s.trace ∧ s'.output_finished = s.output_finished

/-- The run invariant.  `frontier` is the release-frontier property: every live
producer's last observed bucket is at least `current_bucket - 1`.  `mono` says the
last observed bucket followed by the buffered two-level buckets of a port is
non-decreasing (per-producer monotonicity).  `ghosts` is the recorded no-premature-
release property of every group pushed so far. -/
structure Inv (s : GState) : Prop where
  len_inputs : s.inputs.length = s.num_inputs
  len_last : s.last_bucket_number.length = s.num_inputs ∨
    (s.output_finished = true ∧ ∀ p ∈ s.inputs, p = ⟨[], true⟩)
  frontier : ∀ i, i < s.num_inputs → liveAt s i → s.current_bucket - 1 ≤ lastOf s i
  mono : ∀ i, i < s.num_inputs →
    List.Pairwise (fun a b => a ≤ b) (lastOf s i :: bufBuckets (portOf s i))
  ghosts : ∀ e ∈ s.trace, ∀ g, e.ghost = some g →
    ∀ i, i < s.num_inputs → g.live.getD i false = true → g.popped ≤ g.lasts.getD i (-1)

theorem listGetD_set_self {α : Type} (l : List α) (i : Nat) (a d : α) (h : i < l.length) :
    (l.set i a).getD i d = a := by
  induction l generalizing i with
  | nil => simp at h
  | cons x xs ih =>
    cases i with
    | zero => rfl
    | succ n => simpa using ih n (by simpa using h)

theorem listGetD_set_ne {α : Type} (l : List α) (i j : Nat) (a d : α) (h : j ≠ i) :
    (l.set i a).getD j d = l.getD j d := by
  induction l generalizing i j with
  | nil => rfl
  | cons x xs ih =>
    cases i with
    | zero => cases j with
      | zero => exact absurd rfl h
      | succ m => rfl
    | succ n => cases j with
      | zero => rfl
      | succ m => simpa using ih n m (fun hm => h (by simp [hm]))

theorem listGetD_mem {α : Type} (l : List α) (i : Nat) (d : α) (h : i < l.length) :
    l.getD i d ∈ l := by
  induction l generalizing i with
  | nil => simp at h
  | cons x xs ih =>
    cases i with
    | zero => simp [List.getD]
    | succ n =>
      have := ih n (by simpa using h)
      simp only [List.getD] at this ⊢
      simpa using Or.inr this

theorem listGetD_map {α β : Type} (f : α → β) (l : List α) (i : Nat) (d : α) (h : i < l.length) :
    (l.map f).getD i (f d) = f (l.getD i d) := by
  induction l generalizing i with
  | nil => simp at h
  | cons x xs ih =>
    cases i with
    | zero => rfl
    | succ n => simpa using ih n (by simpa using h)

theorem listGetD_ge {α : Type} (l : List α) (i : Nat) (d : α) (h : l.length ≤ i) :
    l.getD i d = d := by
  induction l generalizing i with
  | nil => cases i <;> rfl
  | cons x xs ih =>
    cases i with
    | zero => simp at h
    | succ n => simpa using ih n (by simpa using h)

theorem listGetD_irrel {α : Type} (l : List α) (i : Nat) (d d' : α) (h : i < l.length) :
    l.getD i d = l.getD i d' := by
  induction l generalizing i with
  | nil => simp at h
  | cons x xs ih =>
    cases i with
    | zero => rfl
    | succ n => simpa using ih n (by simpa using h)

theorem listGetD_replicate {α : Type} (n i : Nat) (a : α) :
    (List.replicate n a).getD i a = a := by
  induction n generalizing i with
  | zero => cases i <;> rfl
  | succ m ih =>
    cases i with
    | zero => rfl
    | succ k => simpa [List.replicate] using ih k

theorem needInput_false_le (s : GState) (i : Nat) (h : needInput s i = false) :
    s.current_bucket ≤ lastOf s i := by
  by_cases hlt : lastOf s i < s.current_bucket
  · unfold needInput at h
    rw [if_pos hlt] at h
    cases h
  · omega

/-- The invariant only looks at six fields; transport it along field equalities. -/
theorem inv_congr (s s' : GState)
    (h1 : s'.inputs = s.inputs) (h2 : s'.last_bucket_number = s.last_bucket_number)
    (h3 : s'.current_bucket = s.current_bucket) (h4 : s'.trace = s.trace)
    (h5 : s'.num_inputs = s.num_inputs) (h6 : s'.output_finished = s.output_finished)
    (hInv : Inv s) : Inv s' := by
  constructor
  · rw [h1, h5]; exact hInv.len_inputs
  · rw [h2, h5, h6, h1]; exact hInv.len_last
  · intro i hi hl
    rw [h5] at hi
    have hl' : liveAt s i := by
      simp only [liveAt, portOf, h1] at hl ⊢; exact hl
    have := hInv.frontier i hi hl'
    simp only [lastOf, h2, h3]
    exact this
  · intro i hi
    rw [h5] at hi
    simp only [lastOf, portOf, h1, h2]
    exact hInv.mono i hi
  · intro e he g hg i hi
    rw [h4] at he
    rw [h5] at hi
    exact hInv.ghosts e he g hg i hi

/-- Pushing a group with no ghost record preserves the invariant. -/
theorem pushData_none_inv (s : GState) (cs : List Chunk) (bucket : Int) (is_ov : Bool)
    (hInv : Inv s) :
    Inv (pushData s cs bucket is_ov none) ∧
    (pushData s cs bucket is_ov none).num_inputs = s.num_inputs ∧
    (pushData s cs bucket is_ov none).current_bucket = s.current_bucket ∧
    (pushData s cs bucket is_ov none).output_finished = s.output_finished := by
  refine ⟨⟨hInv.len_inputs, hInv.len_last, hInv.frontier, hInv.mono, ?_⟩, rfl, rfl, rfl⟩
  intro e he g hg i hi
  simp only [pushData, List.mem_append, List.mem_singleton] at he
  rcases he with he | he
  · exact hInv.ghosts e he g hg i hi
  · subst he; cases hg

/-- Finishing the output port preserves the invariant when it was not yet finished. -/
theorem inv_finish_output (s : GState) (hInv : Inv s) (hof : s.output_finished = false) :
    Inv { s with output_finished := true } := by
  refine ⟨hInv.len_inputs, ?_, hInv.frontier, hInv.mono, hInv.ghosts⟩
  rcases hInv.len_last with hL | ⟨ho, _⟩
  · exact Or.inl hL
  · rw [hof] at ho; cases ho

/-- Pulling the head chunk of port `i` into a state `t`, when the chunk is not
two-level (overflow or `bucket < 0`) and `last_bucket_number` is untouched,
preserves the invariant. -/
theorem pull_untouched_inv (s : GState) (i : Nat) (c : Chunk) (rest : List Chunk)
    (t : GState) (hInv : Inv s) (hi : i < s.num_inputs)
    (hbuf : (portOf s i).buffer = c :: rest)
    (htb : twoLevelBucketOf c = none)
    (hin : t.inputs = s.inputs.set i ⟨rest, (portOf s i).finished⟩)
    (hnum : t.num_inputs = s.num_inputs)
    (hlast : t.last_bucket_number = s.last_bucket_number)
    (hcur : t.current_bucket = s.current_bucket)
    (htr : t.trace = s.trace) :
    Inv t ∧ (∀ j, j ≠ i → portOf t j = portOf s j ∧ lastOf t j = lastOf s j) ∧
    portOf t i = ⟨rest, (portOf s i).finished⟩ := by
  have hleni : s.inputs.length = s.num_inputs := hInv.len_inputs
  have hset_len : i < s.inputs.length := by omega
  have hmemi : portOf s i ∈ s.inputs := listGetD_mem _ _ _ hset_len
  have hlenL : s.last_bucket_number.length = s.num_inputs := by
    rcases hInv.len_last with hL | ⟨_, hall⟩
    · exact hL
    · exact absurd hbuf (by simp [hall _ hmemi])
  have hporti : portOf t i = ⟨rest, (portOf s i).finished⟩ := by
    simp only [portOf, hin]
    exact listGetD_set_self _ _ _ _ hset_len
  have hportj : ∀ j, j ≠ i → portOf t j = portOf s j := by
    intro j hj
    simp only [portOf, hin]
    exact listGetD_set_ne _ _ _ _ _ hj
  have hlastj : ∀ j, lastOf t j = lastOf s j := by
    intro j; simp only [lastOf, hlast]
  have hlive0 : liveAt s i := by simp [liveAt, isFinishedPort, hbuf]
  have hbb : bufBuckets (portOf s i) = bufBuckets ⟨rest, (portOf s i).finished⟩ := by
    simp only [bufBuckets]
    rw [hbuf]
    simp [List.filterMap_cons, htb]
  refine ⟨⟨?_, ?_, ?_, ?_, ?_⟩, fun j hj => ⟨hportj j hj, hlastj j⟩, hporti⟩
  · rw [hin, hnum]
    simp [hleni]
  · left
    rw [hlast, hnum]
    exact hlenL
  · intro j hj hl
    rw [hnum] at hj
    rw [hlastj j, hcur]
    by_cases hji : j = i
    · subst hji
      exact hInv.frontier j hj hlive0
    · apply hInv.frontier j hj
      simpa [liveAt, hportj j hji] using hl
  · intro j hj
    rw [hnum] at hj
    rw [hlastj j]
    by_cases hji : j = i
    · subst hji
      rw [hporti, ← hbb]
      exact hInv.mono j hj
    · rw [hportj j hji]
      exact hInv.mono j hj
  · intro e he g hg j hj
    rw [htr] at he
    rw [hnum] at hj
    exact hInv.ghosts e he g hg j hj

/-- Pulling the head chunk of port `i` into a state `t`, when the chunk is
two-level with bucket `b` and `last_bucket_number[i]` is set to `b`,
preserves the invariant. -/
theorem pull_twolevel_inv (s : GState) (i : Nat) (c : Chunk) (rest : List Chunk)
    (b : Int) (t : GState) (hInv : Inv s) (hi : i < s.num_inputs)
    (hbuf : (portOf s i).buffer = c :: rest)
    (htb : twoLevelBucketOf c = some b)
    (hin : t.inputs = s.inputs.set i ⟨rest, (portOf s i).finished⟩)
    (hnum : t.num_inputs = s.num_inputs)
    (hlast : t.last_bucket_number = s.last_bucket_number.set i b)
    (hcur : t.current_bucket = s.current_bucket)
    (htr : t.trace = s.trace) :
    Inv t ∧ (∀ j, j ≠ i → portOf t j = portOf s j ∧ lastOf t j = lastOf s j) ∧
    portOf t i = ⟨rest, (portOf s i).finished⟩ := by
  have hleni : s.inputs.length = s.num_inputs := hInv.len_inputs
  have hset_len : i < s.inputs.length := by omega
  have hmemi : portOf s i ∈ s.inputs := listGetD_mem _ _ _ hset_len
  have hlenL : s.last_bucket_number.length = s.num_inputs := by
    rcases hInv.len_last with hL | ⟨_, hall⟩
    · exact hL
    · exact absurd hbuf (by simp [hall _ hmemi])
  have hporti : portOf t i = ⟨rest, (portOf s i).finished⟩ := by
    simp only [portOf, hin]
    exact listGetD_set_self _ _ _ _ hset_len
  have hportj : ∀ j, j ≠ i → portOf t j = portOf s j := by
    intro j hj
    simp only [portOf, hin]
    exact listGetD_set_ne _ _ _ _ _ hj
  have hlasti : lastOf t i = b := by
    simp only [lastOf, hlast]
    exact listGetD_set_self _ _ _ _ (by omega)
  have hlastj : ∀ j, j ≠ i → lastOf t j = lastOf s j := by
    intro j hj
    simp only [lastOf, hlast]
    exact listGetD_set_ne _ _ _ _ _ hj
  have hlive0 : liveAt s i := by simp [liveAt, isFinishedPort, hbuf]
  have hbbold : bufBuckets (portOf s i) = b :: bufBuckets ⟨rest, (portOf s i).finished⟩ := by
    simp only [bufBuckets]
    rw [hbuf]
    simp [List.filterMap_cons, htb]
  have hmono0 := hInv.mono i hi
  rw [hbbold] at hmono0
  have hle : lastOf s i ≤ b := (List.pairwise_cons.mp hmono0).1 b (by simp)
  have htail := (List.pairwise_cons.mp hmono0).2
  refine ⟨⟨?_, ?_, ?_, ?_, ?_⟩, fun j hj => ⟨hportj j hj, hlastj j hj⟩, hporti⟩
  · rw [hin, hnum]
    simp [hleni]
  · left
    rw [hlast, hnum]
    simp [hlenL]
  · intro j hj hl
    rw [hnum] at hj
    rw [hcur]
    by_cases hji : j = i
    · subst hji
      rw [hlasti]
      have := hInv.frontier j hj hlive0
      omega
    · rw [hlastj j hji]
      apply hInv.frontier j hj
      simpa [liveAt, hportj j hji] using hl
  · intro j hj
    rw [hnum] at hj
    by_cases hji : j = i
    · subst hji
      rw [hporti, hlasti]
      exact htail
    · rw [hportj j hji, hlastj j hji]
      exact hInv.mono j hj
  · intro e he g hg j hj
    rw [htr] at he
    rw [hnum] at hj
    exact hInv.ghosts e he g hg j hj

/-- Pulling the head chunk of port `i` and running `addChunk` on it preserves the
invariant and only touches port `i` and (for a two-level chunk) entry `i` of
`last_bucket_number`. -/
theorem addChunk_pull_inv (s s1 : GState) (i : Nat) (c : Chunk) (rest : List Chunk)
    (hInv : Inv s) (hi : i < s.num_inputs)
    (hbuf : (portOf s i).buffer = c :: rest)
    (hin : s1.inputs = s.inputs.set i ⟨rest, (portOf s i).finished⟩)
    (hnum : s1.num_inputs = s.num_inputs)
    (hlast : s1.last_bucket_number = s.last_bucket_number)
    (hcur : s1.current_bucket = s.current_bucket)
    (htr : s1.trace = s.trace)
    (hof : s1.output_finished = s.output_finished) :
    ∀ s2, addChunk s1 c i = Except.ok s2 →
      Inv s2 ∧ s2.num_inputs = s.num_inputs ∧ s2.trace = s.trace ∧
      s2.current_bucket = s.current_bucket ∧ s2.output_finished = s.output_finished ∧
      (∀ j, j ≠ i → portOf s2 j = portOf s j ∧ lastOf s2 j = lastOf s j) ∧
      portOf s2 i = ⟨rest, (portOf s i).finished⟩ := by
  intro s2 h
  match hc : c.info with
  | none => simp [addChunk, hc] at h
  | some (ChunkInfo.ChunksToMerge ms bk ov) => simp [addChunk, hc] at h
  | some (ChunkInfo.AggregatedChunkInfo b o) =>
    simp only [addChunk, hc] at h
    split at h
    · -- overflow chunk
      rename_i ho
      simp only [Except.ok.injEq] at h
      subst h
      have htb : twoLevelBucketOf c = none := by
        simp [twoLevelBucketOf, hc, ho]
      obtain ⟨h1, h2, h3⟩ :=
        pull_untouched_inv s i c rest
          { s1 with overflow_chunks := s1.overflow_chunks ++ [c] }
          hInv hi hbuf htb hin hnum hlast hcur htr
      exact ⟨h1, hnum, htr, hcur, hof, h2, h3⟩
    · split at h
      · -- single-level chunk
        rename_i ho hb
        simp only [Except.ok.injEq] at h
        subst h
        have htb : twoLevelBucketOf c = none := by
          simp only [twoLevelBucketOf, hc]
          rw [if_neg]
          rintro ⟨-, hb0⟩
          omega
        obtain ⟨h1, h2, h3⟩ :=
          pull_untouched_inv s i c rest
            { s1 with single_level_chunks := s1.single_level_chunks ++ [c] }
            hInv hi hbuf htb hin hnum hlast hcur htr
        exact ⟨h1, hnum, htr, hcur, hof, h2, h3⟩
      · -- two-level chunk
        rename_i ho hb
        simp only [Except.ok.injEq] at h
        subst h
        have ho' : o = false := by
          cases o
          · rfl
          · exact absurd rfl ho
        have htb : twoLevelBucketOf c = some b := by
          simp only [twoLevelBucketOf, hc]
          rw [if_pos ⟨ho', by omega⟩]
        obtain ⟨h1, h2, h3⟩ :=
          pull_twolevel_inv s i c rest b
            { s1 with chunks := mapAppend s1.chunks b c,
                      has_two_level := true,
                      last_bucket_number := s1.last_bucket_number.set i b }
            hInv hi hbuf htb hin hnum (by simp only [hlast]) hcur htr
        exact ⟨h1, hnum, htr, hcur, hof, h2, h3⟩

theorem listSet_ge {α : Type} (l : List α) (i : Nat) (a : α) (h : l.length ≤ i) :
    l.set i a = l := by
  induction l generalizing i with
  | nil => rfl
  | cons x xs ih =>
    cases i with
    | zero => simp at h
    | succ n => simpa using ih n (by simpa using h)

theorem port_buffer_lt (s : GState) (hInv : Inv s) (i : Nat) (c : Chunk)
    (rest : List Chunk) (hbuf : (portOf s i).buffer = c :: rest) : i < s.num_inputs := by
  by_contra hge
  have hlen : s.inputs.length ≤ i := by
    have := hInv.len_inputs
    omega
  have hdef : portOf s i = defaultPort := by
    unfold portOf
    exact listGetD_ge _ _ _ hlen
  rw [hdef] at hbuf
  simp [defaultPort] at hbuf

theorem rfaiGo_spec : ∀ (rem i : Nat) (s : GState), Inv s →
    ∀ s', rfaiGo rem i s = Except.ok s' →
      Inv s' ∧ s'.num_inputs = s.num_inputs ∧ s'.trace = s.trace ∧
      s'.current_bucket = s.current_bucket ∧ s'.output_finished = s.output_finished := by
  intro rem
  induction rem with
  | zero =>
    intro i s hInv s' h
    simp only [rfaiGo, Except.ok.injEq] at h
    subst h
    exact ⟨inv_congr s _ rfl rfl rfl rfl rfl rfl hInv, rfl, rfl, rfl, rfl⟩
  | succ rem ih =>
    intro i s hInv s' h
    simp only [rfaiGo] at h
    split at h
    · exact ih (i + 1) s hInv s' h
    · split at h
      · exact ih (i + 1) s hInv s' h
      · split at h
        · simp only [Except.ok.injEq] at h
          subst h
          exact ⟨hInv, rfl, rfl, rfl, rfl⟩
        · rename_i c rest hbufeq
          split at h
          · simp at h
          · rename_i s2 hadd
            have hi : i < s.num_inputs := port_buffer_lt s hInv i c rest hbufeq
            obtain ⟨hI2, hn2, ht2, hc2, ho2, _, _⟩ :=
              addChunk_pull_inv s
                { s with inputs := s.inputs.set i ⟨rest, (portOf s i).finished⟩,
                         read_from_input := s.read_from_input.set i true }
                i c rest hInv hi hbufeq rfl rfl rfl rfl rfl rfl s2 hadd
            obtain ⟨hI3, hn3, ht3, hc3, ho3⟩ := ih (i + 1) s2 hI2 s' h
            exact ⟨hI3, hn3.trans hn2, ht3.trans ht2, hc3.trans hc2, ho3.trans ho2⟩

theorem passGo_spec : ∀ (rem i : Nat) (fin nd : Bool) (s : GState), Inv s →
    (∀ s', passGo rem i fin nd s = PassOut.ready s' →
        Inv s' ∧ s'.num_inputs = s.num_inputs ∧ s'.trace = s.trace ∧
        s'.current_bucket = s.current_bucket ∧ s'.output_finished = s.output_finished) ∧
    (∀ s' fin' nd', passGo rem i fin nd s = PassOut.done s' fin' nd' →
        Inv s' ∧ s'.num_inputs = s.num_inputs ∧ s'.trace = s.trace ∧
        s'.current_bucket = s.current_bucket ∧ s'.output_finished = s.output_finished ∧
        (∀ j, j < i → portOf s' j = portOf s j ∧ lastOf s' j = lastOf s j) ∧
        (nd' = false → nd = false) ∧
        (nd' = false → ∀ j, i ≤ j → j < i + rem → liveAt s' j →
            s.current_bucket ≤ lastOf s' j)) := by
  intro rem
  induction rem with
  | zero =>
    intro i fin nd s hInv
    constructor
    · intro s' h
      simp [passGo] at h
    · intro s' fin' nd' h
      simp only [passGo, PassOut.done.injEq] at h
      obtain ⟨h1, h2, h3⟩ := h
      subst h1
      subst h2
      subst h3
      exact ⟨hInv, rfl, rfl, rfl, rfl, fun j _ => ⟨rfl, rfl⟩, fun hx => hx,
        fun _ j hij hjr => absurd hjr (by omega)⟩
  | succ rem ih =>
    intro i fin nd s hInv
    constructor
    · intro s' h
      simp only [passGo] at h
      split at h
      · exact ((ih (i + 1) fin nd s hInv).1) s' h
      · split at h
        · exact ((ih (i + 1) false nd s hInv).1) s' h
        · split at h
          · exact ((ih (i + 1) false true s hInv).1) s' h
          · rename_i c rest hbufeq
            split at h
            · simp at h
            · rename_i s2 hadd
              have hi : i < s.num_inputs := port_buffer_lt s hInv i c rest hbufeq
              obtain ⟨hI2, hn2, ht2, hc2, ho2, hpj, hpi⟩ :=
                addChunk_pull_inv s
                  { s with inputs := s.inputs.set i ⟨rest, (portOf s i).finished⟩ }
                  i c rest hInv hi hbufeq rfl rfl rfl rfl rfl rfl s2 hadd
              split at h
              · simp only [PassOut.ready.injEq] at h
                subst h
                exact ⟨hI2, hn2, ht2, hc2, ho2⟩
              · obtain ⟨hI3, hn3, ht3, hc3, ho3⟩ :=
                  ((ih (i + 1) false (nd || needInput s2 i) s2 hI2).1) s' h
                exact ⟨hI3, hn3.trans hn2, ht3.trans ht2, hc3.trans hc2, ho3.trans ho2⟩
    · intro s' fin' nd' h
      simp only [passGo] at h
      split at h
      · -- finished port: skipped
        rename_i hfin
        obtain ⟨hI3, hn3, ht3, hc3, ho3, hlow, hndm, hp4⟩ :=
          ((ih (i + 1) fin nd s hInv).2) s' fin' nd' h
        refine ⟨hI3, hn3, ht3, hc3, ho3, fun j hj => hlow j (by omega), hndm, ?_⟩
        intro hnd' j hij hjr hlive
        by_cases hji : j = i
        · subst hji
          exfalso
          have hpj := (hlow j (by omega)).1
          have hl2 : isFinishedPort (portOf s j) = false := by
            have := hlive
            simp only [liveAt] at this
            rwa [hpj] at this
          rw [hfin] at hl2
          cases hl2
        · exact hp4 hnd' j (by omega) (by omega) hlive
      · split at h
        · -- input not needed: skipped
          rename_i hfin hni
          obtain ⟨hI3, hn3, ht3, hc3, ho3, hlow, hndm, hp4⟩ :=
            ((ih (i + 1) false nd s hInv).2) s' fin' nd' h
          refine ⟨hI3, hn3, ht3, hc3, ho3, fun j hj => hlow j (by omega), hndm, ?_⟩
          intro hnd' j hij hjr hlive
          by_cases hji : j = i
          · subst hji
            have hle : s.current_bucket ≤ lastOf s j :=
              needInput_false_le s j (by simpa using hni)
            rw [(hlow j (by omega)).2]
            exact hle
          · exact hp4 hnd' j (by omega) (by omega) hlive
        · split at h
          · -- needed input with no data: need_data := true
            obtain ⟨hI3, hn3, ht3, hc3, ho3, hlow, hndm, hp4⟩ :=
              ((ih (i + 1) false true s hInv).2) s' fin' nd' h
            refine ⟨hI3, hn3, ht3, hc3, ho3, fun j hj => hlow j (by omega), ?_, ?_⟩
            · intro hnd'
              exact absurd (hndm hnd') (by simp)
            · intro hnd'
              exact absurd (hndm hnd') (by simp)
          · -- pull a chunk
            rename_i c rest hbufeq
            split at h
            · simp at h
            · rename_i s2 hadd
              have hi : i < s.num_inputs := port_buffer_lt s hInv i c rest hbufeq
              obtain ⟨hI2, hn2, ht2, hc2, ho2, hpj, hpi⟩ :=
                addChunk_pull_inv s
                  { s with inputs := s.inputs.set i ⟨rest, (portOf s i).finished⟩ }
                  i c rest hInv hi hbufeq rfl rfl rfl rfl rfl rfl s2 hadd
              split at h
              · simp at h
              · obtain ⟨hI3, hn3, ht3, hc3, ho3, hlow, hndm, hp4⟩ :=
                  ((ih (i + 1) false (nd || needInput s2 i) s2 hI2).2) s' fin' nd' h
                refine ⟨hI3, hn3.trans hn2, ht3.trans ht2, hc3.trans hc2,
                  ho3.trans ho2, ?_, ?_, ?_⟩
                · intro j hj
                  have h1 := hlow j (by omega)
                  have h2 := hpj j (by omega)
                  exact ⟨h1.1.trans h2.1, h1.2.trans h2.2⟩
                · intro hnd'
                  exact (Bool.or_eq_false_iff.mp (hndm hnd')).1
                · intro hnd' j hij hjr hlive
                  by_cases hji : j = i
                  · subst hji
                    have hni2 : needInput s2 j = false :=
                      (Bool.or_eq_false_iff.mp (hndm hnd')).2
                    have hle : s2.current_bucket ≤ lastOf s2 j :=
                      needInput_false_le s2 j hni2
                    rw [(hlow j (by omega)).2, ← hc2]
                    exact hle
                  · have := hp4 hnd' j (by omega) (by omega) hlive
                    rw [hc2] at this
                    exact this

theorem outerLoop_spec : ∀ (fuel : Nat) (s : GState), Inv s →
    (∀ s', outerLoop fuel s = LoopOut.broke s' →
        Inv s' ∧ s'.num_inputs = s.num_inputs ∧ s'.trace = s.trace ∧
        s'.output_finished = s.output_finished) ∧
    (∀ s', outerLoop fuel s = LoopOut.needData s' →
        Inv s' ∧ s'.num_inputs = s.num_inputs ∧ s'.trace = s.trace ∧
        s'.output_finished = s.output_finished) ∧
    (∀ s', outerLoop fuel s = LoopOut.ready s' →
        Inv s' ∧ s'.num_inputs = s.num_inputs ∧ s'.trace = s.trace ∧
        s'.output_finished = s.output_finished) := by
  intro fuel
  induction fuel with
  | zero =>
    intro s hInv
    refine ⟨?_, ?_, ?_⟩ <;> intro s' h <;> simp [outerLoop] at h
  | succ fuel ih =>
    intro s hInv
    have hpass := passGo_spec s.num_inputs 0 true false s hInv
    have main : ∀ s1 (fin nd : Bool),
        passGo s.num_inputs 0 true false s = PassOut.done s1 fin nd →
        ¬(fin = true) → ¬(nd = true) →
        Inv { s1 with current_bucket := s1.current_bucket + 1 } ∧
        s1.num_inputs = s.num_inputs ∧ s1.trace = s.trace ∧
        s1.output_finished = s.output_finished := by
      intro s1 fin nd hpq hfin hnd
      obtain ⟨hI1, hn1, ht1, hc1, ho1, _, _, hp4⟩ := hpass.2 s1 fin nd hpq
      have hndf : nd = false := by simpa using hnd
      refine ⟨⟨hI1.len_inputs, hI1.len_last, ?_, hI1.mono, hI1.ghosts⟩, hn1, ht1, ho1⟩
      intro j hj hlive
      have hj1 : j < s1.num_inputs := hj
      have hle := hp4 hndf j (by omega) (by omega) hlive
      have hc1' : s1.current_bucket = s.current_bucket := hc1
      show s1.current_bucket + 1 - 1 ≤ lastOf s1 j
      omega
    refine ⟨?_, ?_, ?_⟩
    · intro s' h
      simp only [outerLoop] at h
      split at h
      · simp at h
      · simp at h
      · rename_i s1 fin nd hpq
        split at h
        · rename_i hfin
          simp only [LoopOut.broke.injEq] at h
          subst h
          obtain ⟨hI1, hn1, ht1, _, ho1, _, _, _⟩ := hpass.2 s1 fin nd hpq
          exact ⟨inv_congr s1 _ rfl rfl rfl rfl rfl rfl hI1, hn1, ht1, ho1⟩
        · split at h
          · simp at h
          · rename_i hfin hnd
            obtain ⟨hI'', hn1, ht1, ho1⟩ := main s1 fin nd hpq hfin hnd
            obtain ⟨hb, _, _⟩ := ih _ hI''
            obtain ⟨hI3, hn3, ht3, ho3⟩ := hb s' h
            exact ⟨hI3, hn3.trans hn1, ht3.trans ht1, ho3.trans ho1⟩
    · intro s' h
      simp only [outerLoop] at h
      split at h
      · simp at h
      · simp at h
      · rename_i s1 fin nd hpq
        split at h
        · simp at h
        · split at h
          · rename_i hfin hnd
            simp only [LoopOut.needData.injEq] at h
            subst h
            obtain ⟨hI1, hn1, ht1, _, ho1, _, _, _⟩ := hpass.2 s1 fin nd hpq
            exact ⟨hI1, hn1, ht1, ho1⟩
          · rename_i hfin hnd
            obtain ⟨hI'', hn1, ht1, ho1⟩ := main s1 fin nd hpq hfin hnd
            obtain ⟨_, hn, _⟩ := ih _ hI''
            obtain ⟨hI3, hn3, ht3, ho3⟩ := hn s' h
            exact ⟨hI3, hn3.trans hn1, ht3.trans ht1, ho3.trans ho1⟩
    · intro s' h
      simp only [outerLoop] at h
      split at h
      · simp at h
      · rename_i s1 hpq
        simp only [LoopOut.ready.injEq] at h
        subst h
        obtain ⟨hI1, hn1, ht1, _, ho1⟩ := hpass.1 s1 hpq
        exact ⟨hI1, hn1, ht1, ho1⟩
      · rename_i s1 fin nd hpq
        split at h
        · simp at h
        · split at h
          · simp at h
          · rename_i hfin hnd
            obtain ⟨hI'', hn1, ht1, ho1⟩ := main s1 fin nd hpq hfin hnd
            obtain ⟨_, _, hr⟩ := ih _ hI''
            obtain ⟨hI3, hn3, ht3, ho3⟩ := hr s' h
            exact ⟨hI3, hn3.trans hn1, ht3.trans ht1, ho3.trans ho1⟩

theorem scanGo_spec : ∀ (steps : Nat) (j : Int) (s s' : GState)
    (r : Option (Int × List Chunk)), scanGo steps j s = (s', r) →
      s'.inputs = s.inputs ∧ s'.last_bucket_number = s.last_bucket_number ∧
      s'.current_bucket = s.current_bucket ∧ s'.trace = s.trace ∧
      s'.num_inputs = s.num_inputs ∧ s'.output_finished = s.output_finished ∧
      (∀ b cc, r = some (b, cc) → j ≤ b ∧ b < j + steps) := by
  intro steps
  induction steps with
  | zero =>
    intro j s s' r h
    simp only [scanGo, Prod.mk.injEq] at h
    obtain ⟨h1, h2⟩ := h
    subst h1
    subst h2
    exact ⟨rfl, rfl, rfl, rfl, rfl, rfl, fun b cc hbc => by cases hbc⟩
  | succ steps ih =>
    intro j s s' r h
    simp only [scanGo] at h
    split at h
    · obtain ⟨h1, h2, h3, h4, h5, h6, h7⟩ := ih (j + 1) _ s' r h
      exact ⟨h1, h2, h3, h4, h5, h6, fun b cc hbc => by
        have := h7 b cc hbc
        omega⟩
    · split at h
      · obtain ⟨h1, h2, h3, h4, h5, h6, h7⟩ := ih (j + 1) _ s' r h
        exact ⟨h1, h2, h3, h4, h5, h6, fun b cc hbc => by
          have := h7 b cc hbc
          omega⟩
      · simp only [Prod.mk.injEq] at h
        obtain ⟨h1, h2⟩ := h
        subst h1
        subst h2
        refine ⟨rfl, rfl, rfl, rfl, rfl, rfl, ?_⟩
        intro b cc2 hbc
        simp only [Option.some.injEq, Prod.mk.injEq] at hbc
        obtain ⟨hb, -⟩ := hbc
        omega

/-- Pushing a released bucket's group, with its ghost record, preserves the
invariant: the popped bucket is below the release frontier, so every live
producer's last observed bucket is at least the popped bucket. -/
theorem pushData_ghost_inv (s t : GState) (cc : List Chunk) (bucket popped : Int)
    (hInv : Inv s)
    (hin : t.inputs = s.inputs) (hlast : t.last_bucket_number = s.last_bucket_number)
    (hcur : t.current_bucket = s.current_bucket) (htr : t.trace = s.trace)
    (hnum : t.num_inputs = s.num_inputs) (hof : t.output_finished = s.output_finished)
    (hpop : popped ≤ s.current_bucket - 1) :
    Inv (pushData t cc bucket false
      (some ⟨popped, t.last_bucket_number, t.inputs.map (fun p => !(isFinishedPort p))⟩)) := by
  have hInvT : Inv t := inv_congr s t hin hlast hcur htr hnum hof hInv
  refine ⟨hInvT.len_inputs, hInvT.len_last, hInvT.frontier, hInvT.mono, ?_⟩
  intro e he g hg i hi
  simp only [pushData, List.mem_append, List.mem_singleton] at he
  rcases he with he | he
  · exact hInvT.ghosts e he g hg i hi
  · subst he
    simp only [Option.some.injEq] at hg
    subst hg
    intro hlivei
    have hi' : i < t.num_inputs := hi
    have hilen : i < t.inputs.length := by
      have := hInvT.len_inputs
      omega
    have hmap : (t.inputs.map (fun p => !(isFinishedPort p))).getD i false
        = !(isFinishedPort (t.inputs.getD i defaultPort)) := by
      rw [listGetD_irrel _ i false (!(isFinishedPort defaultPort)) (by simpa using hilen)]
      exact listGetD_map _ _ _ _ hilen
    have hlivei' : (t.inputs.map (fun p => !(isFinishedPort p))).getD i false = true :=
      hlivei
    have hliveT : liveAt t i := by
      rw [hmap] at hlivei'
      simpa [liveAt, portOf] using hlivei'
    have hfr := hInvT.frontier i (by omega) hliveT
    have hcc : t.current_bucket = s.current_bucket := hcur
    simp only [lastOf] at hfr
    show popped ≤ t.last_bucket_number.getD i (-1)
    omega

theorem tryPushTwoLevelData_inv (s : GState) (hInv : Inv s) :
    ∀ s' p, tryPushTwoLevelData s = some (s', p) →
      Inv s' ∧ s'.num_inputs = s.num_inputs ∧ s'.current_bucket = s.current_bucket ∧
      s'.output_finished = s.output_finished := by
  intro s' p h
  rcases hscan : scanGo (s.current_bucket - s.next_bucket_to_push).toNat
      s.next_bucket_to_push s with ⟨s1, r⟩
  obtain ⟨e1, e2, e3, e4, e5, e6, hrange⟩ := scanGo_spec _ _ _ _ _ hscan
  cases r with
  | none =>
    simp only [tryPushTwoLevelData, hscan] at h
    split at h
    · simp at h
    · simp only [Option.some.injEq, Prod.mk.injEq] at h
      obtain ⟨h1, h2⟩ := h
      subst h1
      exact ⟨inv_congr s s1 e1 e2 e3 e4 e5 e6 hInv, e5, e3, e6⟩
  | some bc =>
    obtain ⟨b, cc⟩ := bc
    simp only [tryPushTwoLevelData, hscan, Option.some.injEq, Prod.mk.injEq] at h
    obtain ⟨h1, h2⟩ := h
    subst h1
    obtain ⟨hble, hblt0⟩ := hrange b cc rfl
    have hblt : b < s.current_bucket := by omega
    have hInvP := pushData_ghost_inv s
      { s1 with chunks := mapErase s1.chunks b, next_bucket_to_push := b }
      cc s1.current_bucket b hInv e1 e2 e3 e4 e5 e6 (by omega)
    exact ⟨hInvP, e5, e3, e6⟩

theorem prepareTail_inv (s : GState) (p : Bool) (hInv : Inv s)
    (hof : s.output_finished = false) :
    ∀ s' st, prepareTail s p = PrepOutcome.ok s' st → Inv s' := by
  intro s' st h
  simp only [prepareTail] at h
  split at h
  · simp at h
  · rename_i s2 p2 heq
    have hs2 : Inv s2 ∧ s2.output_finished = false := by
      by_cases hp : p = true
      · rw [if_pos hp] at heq
        simp only [Option.some.injEq, Prod.mk.injEq] at heq
        obtain ⟨h1, -⟩ := heq
        subst h1
        exact ⟨hInv, hof⟩
      · rw [if_neg hp] at heq
        by_cases h2l : s.has_two_level = true
        · rw [if_pos h2l] at heq
          obtain ⟨hI, -, -, hofr⟩ := tryPushTwoLevelData_inv s hInv s2 p2 heq
          exact ⟨hI, by rw [hofr, hof]⟩
        · rw [if_neg h2l] at heq
          simp only [Option.some.injEq] at heq
          unfold tryPushSingleLevelData at heq
          split at heq
          · simp only [Prod.mk.injEq] at heq
            obtain ⟨h1, -⟩ := heq
            subst h1
            exact ⟨hInv, hof⟩
          · simp only [Prod.mk.injEq] at heq
            obtain ⟨h1, -⟩ := heq
            subst h1
            exact ⟨(pushData_none_inv s _ _ _ hInv).1, hof⟩
    obtain ⟨hI2, hof2⟩ := hs2
    by_cases hp2 : p2 = true
    · subst hp2
      have hinner : (if (true : Bool) = true then (s2, true) else tryPushOverflowData s2)
          = (s2, true) := by simp
      rw [hinner] at h
      simp at h
      obtain ⟨h1, -⟩ := h
      subst h1
      exact hI2
    · have hp2f : p2 = false := by simpa using hp2
      subst hp2f
      have hinner : (if (false : Bool) = true then (s2, true) else tryPushOverflowData s2)
          = tryPushOverflowData s2 := by simp
      rw [hinner] at h
      by_cases hemp : s2.overflow_chunks.isEmpty = true
      · have hov : tryPushOverflowData s2 = (s2, false) := by
          simp [tryPushOverflowData, hemp]
        rw [hov] at h
        simp at h
        obtain ⟨h1, -⟩ := h
        subst h1
        exact inv_finish_output s2 hI2 hof2
      · have hov : tryPushOverflowData s2
            = (pushData s2 s2.overflow_chunks (-1) true none, true) := by
          simp [tryPushOverflowData, hemp]
        rw [hov] at h
        simp at h
        obtain ⟨h1, -⟩ := h
        subst h1
        exact (pushData_none_inv s2 _ _ _ hI2).1

theorem prepareCore_inv (fuel : Nat) (s : GState) (hInv : Inv s)
    (hof : s.output_finished = false) :
    ∀ s' st, prepareCore fuel s = PrepOutcome.ok s' st → Inv s' := by
  intro s' st h
  simp only [prepareCore] at h
  split at h
  · simp only [PrepOutcome.ok.injEq] at h
    obtain ⟨h1, -⟩ := h
    subst h1
    exact hInv
  · split at h
    · simp only [PrepOutcome.ok.injEq] at h
      obtain ⟨h1, -⟩ := h
      subst h1
      exact hInv
    · split at h
      · simp at h
      · rename_i s1 pushed heq
        have hs1 : Inv s1 ∧ s1.output_finished = false := by
          by_cases h2l : s.has_two_level = true
          · rw [if_pos h2l] at heq
            obtain ⟨hI, -, -, hofr⟩ := tryPushTwoLevelData_inv s hInv s1 pushed heq
            exact ⟨hI, by rw [hofr, hof]⟩
          · rw [if_neg h2l] at heq
            simp only [Option.some.injEq, Prod.mk.injEq] at heq
            obtain ⟨h1, -⟩ := heq
            subst h1
            exact ⟨hInv, hof⟩
        obtain ⟨hI1, hof1⟩ := hs1
        split at h
        · simp at h
        · simp at h
        · rename_i s2 hloop
          simp only [PrepOutcome.ok.injEq] at h
          obtain ⟨h1, -⟩ := h
          subst h1
          obtain ⟨-, -, hr⟩ := outerLoop_spec fuel s1 hI1
          exact (hr s2 hloop).1
        · rename_i s2 hloop
          simp only [PrepOutcome.ok.injEq] at h
          obtain ⟨h1, -⟩ := h
          subst h1
          obtain ⟨-, hn, -⟩ := outerLoop_spec fuel s1 hI1
          exact (hn s2 hloop).1
        · rename_i s2 hloop
          obtain ⟨hbr, -, -⟩ := outerLoop_spec fuel s1 hI1
          obtain ⟨hI2, -, -, hof2⟩ := hbr s2 hloop
          exact prepareTail_inv s2 pushed hI2 (by rw [hof2, hof1]) s' st h

theorem prepare_inv (fuel : Nat) (s : GState) (hInv : Inv s) :
    ∀ s' st, prepare fuel s = PrepOutcome.ok s' st → Inv s' := by
  intro s' st h
  simp only [prepare] at h
  split at h
  · rename_i hofin
    simp only [PrepOutcome.ok.injEq] at h
    obtain ⟨h1, -⟩ := h
    subst h1
    have hports : ∀ i, i < s.num_inputs →
        (s.inputs.map closePort).getD i defaultPort = ⟨[], true⟩ := by
      intro i hi
      have hilen : i < s.inputs.length := by
        have := hInv.len_inputs
        omega
      rw [listGetD_irrel _ i defaultPort (closePort defaultPort) (by simpa using hilen),
        listGetD_map closePort _ i defaultPort hilen]
      rfl
    refine ⟨?_, ?_, ?_, ?_, ?_⟩
    · simp [hInv.len_inputs]
    · right
      refine ⟨hofin, ?_⟩
      intro q hq
      simp only [List.mem_map] at hq
      obtain ⟨q0, -, hq0⟩ := hq
      rw [← hq0]
      rfl
    · intro i hi hlive
      exfalso
      have hp := hports i hi
      simp only [liveAt, portOf] at hlive
      rw [hp] at hlive
      simp [isFinishedPort] at hlive
    · intro i hi
      have hp := hports i hi
      simp only [lastOf, portOf]
      rw [hp]
      simp [bufBuckets]
    · intro e he g hg i hi
      exact hInv.ghosts e he g hg i hi
  · rename_i hofin
    have hof : s.output_finished = false := by simpa using hofin
    split at h
    · simp at h
    · rename_i s1 hrfai
      have hs1 : Inv s1 ∧ s1.output_finished = false := by
        by_cases hr : s.read_from_all_inputs = true
        · rw [if_pos hr] at hrfai
          simp only [Except.ok.injEq] at hrfai
          subst hrfai
          exact ⟨hInv, hof⟩
        · rw [if_neg hr] at hrfai
          obtain ⟨hI, -, -, -, hofr⟩ := rfaiGo_spec s.num_inputs 0 s hInv s1 hrfai
          exact ⟨hI, by rw [hofr, hof]⟩
      obtain ⟨hI1, hof1⟩ := hs1
      split at h
      · simp only [PrepOutcome.ok.injEq] at h
        obtain ⟨h1, -⟩ := h
        subst h1
        exact hI1
      · exact prepareCore_inv fuel s1 hI1 hof1 s' st h

theorem work_foldl_fields : ∀ (l : List (Int × Nat)) (acc : GState),
    ((l.foldl (fun acc bc =>
        { acc with chunks := mapAppend acc.chunks bc.1 ⟨bc.2, none⟩ }) acc).inputs
          = acc.inputs) ∧
    ((l.foldl (fun acc bc =>
        { acc with chunks := mapAppend acc.chunks bc.1 ⟨bc.2, none⟩ }) acc).last_bucket_number
          = acc.last_bucket_number) ∧
    ((l.foldl (fun acc bc =>
        { acc with chunks := mapAppend acc.chunks bc.1 ⟨bc.2, none⟩ }) acc).current_bucket
          = acc.current_bucket) ∧
    ((l.foldl (fun acc bc =>
        { acc with chunks := mapAppend acc.chunks bc.1 ⟨bc.2, none⟩ }) acc).trace
          = acc.trace) ∧
    ((l.foldl (fun acc bc =>
        { acc with chunks := mapAppend acc.chunks bc.1 ⟨bc.2, none⟩ }) acc).num_inputs
          = acc.num_inputs) ∧
    ((l.foldl (fun acc bc =>
        { acc with chunks := mapAppend acc.chunks bc.1 ⟨bc.2, none⟩ }) acc).output_finished
          = acc.output_finished) := by
  intro l
  induction l with
  | nil => intro acc; exact ⟨rfl, rfl, rfl, rfl, rfl, rfl⟩
  | cons x xs ih =>
    intro acc
    exact ih { acc with chunks := mapAppend acc.chunks x.1 ⟨x.2, none⟩ }

theorem work_inv (split : Nat → List (Int × Nat)) (s : GState) (hInv : Inv s) :
    Inv (work split s) := by
  unfold work
  split
  · exact hInv
  · rename_i c hlastc
    obtain ⟨f1, f2, f3, f4, f5, f6⟩ := work_foldl_fields (split c.payload)
      { s with single_level_chunks := s.single_level_chunks.dropLast }
    exact inv_congr s _ f1 f2 f3 f4 f5 f6 hInv

theorem step_inv (split : Nat → List (Int × Nat)) (s s' : GState) (hInv : Inv s)
    (h : Step split s s') : Inv s' := by
  cases h with
  | envPush i c b o hi hopen htag hmono =>
    have hset_len : i < s.inputs.length := by
      have := hInv.len_inputs
      omega
    have hporti' : portOf (pushEv s i c) i
        = ⟨(portOf s i).buffer ++ [c], (portOf s i).finished⟩ := by
      simp only [portOf, pushEv]
      exact listGetD_set_self _ _ _ _ hset_len
    have hportj' : ∀ j, j ≠ i → portOf (pushEv s i c) j = portOf s j := by
      intro j hj
      simp only [portOf, pushEv]
      exact listGetD_set_ne _ _ _ _ _ hj
    have hliveS : liveAt s i := by
      simp [liveAt, isFinishedPort, hopen]
    refine ⟨?_, ?_, ?_, ?_, ?_⟩
    · show (pushEv s i c).inputs.length = (pushEv s i c).num_inputs
      simp [pushEv, hInv.len_inputs]
    · rcases hInv.len_last with hL | ⟨ho2, hall⟩
      · exact Or.inl hL
      · exfalso
        have hmem := listGetD_mem s.inputs i defaultPort hset_len
        have heq2 := hall _ hmem
        have hfin2 : (portOf s i).finished = true := by
          simp only [portOf]
          rw [heq2]
        rw [hfin2] at hopen
        cases hopen
    · intro j hj hlive
      have hj' : j < s.num_inputs := hj
      by_cases hji : j = i
      · subst hji
        show s.current_bucket - 1 ≤ lastOf s j
        exact hInv.frontier j hj' hliveS
      · show s.current_bucket - 1 ≤ lastOf s j
        apply hInv.frontier j hj'
        simpa [liveAt, hportj' j hji] using hlive
    · intro j hj
      have hj' : j < s.num_inputs := hj
      by_cases hji : j = i
      · subst hji
        show List.Pairwise (fun a b => a ≤ b)
          (lastOf s j :: bufBuckets (portOf (pushEv s j c) j))
        rw [hporti']
        have hsplit : bufBuckets ⟨(portOf s j).buffer ++ [c], (portOf s j).finished⟩
            = bufBuckets (portOf s j) ++ [c].filterMap twoLevelBucketOf := by
          simp [bufBuckets, List.filterMap_append]
        rw [hsplit]
        cases htbc : twoLevelBucketOf c with
        | none =>
          simp only [List.filterMap_cons, htbc, List.filterMap_nil, List.append_nil]
          exact hInv.mono j hj'
        | some b2 =>
          have hob : o = false ∧ 0 ≤ b ∧ b2 = b := by
            simp only [twoLevelBucketOf, htag] at htbc
            split at htbc
            · rename_i hcond
              simp only [Option.some.injEq] at htbc
              exact ⟨hcond.1, hcond.2, htbc.symm⟩
            · cases htbc
          obtain ⟨ho0, hb0, hb2⟩ := hob
          subst hb2
          obtain ⟨hlastle, hbufle⟩ := hmono ho0 hb0
          simp only [List.filterMap_cons, htbc, List.filterMap_nil]
          show List.Pairwise (fun a b => a ≤ b)
            ((lastOf s j :: bufBuckets (portOf s j)) ++ [b2])
          rw [List.pairwise_append]
          refine ⟨hInv.mono j hj', List.pairwise_singleton _ _, ?_⟩
          intro x hx y hy
          simp only [List.mem_singleton] at hy
          subst hy
          rcases List.mem_cons.mp hx with rfl | hx2
          · exact hlastle
          · exact hbufle x hx2
      · show List.Pairwise (fun a b => a ≤ b)
          (lastOf s j :: bufBuckets (portOf (pushEv s i c) j))
        rw [hportj' j hji]
        exact hInv.mono j hj'
    · intro e he g hg j hj
      exact hInv.ghosts e he g hg j hj
  | envClose i =>
    by_cases hset_len : i < s.inputs.length
    · have hporti' : portOf (closeEv s i) i = ⟨(portOf s i).buffer, true⟩ := by
        simp only [portOf, closeEv]
        exact listGetD_set_self _ _ _ _ hset_len
      have hportj' : ∀ j, j ≠ i → portOf (closeEv s i) j = portOf s j := by
        intro j hj
        simp only [portOf, closeEv]
        exact listGetD_set_ne _ _ _ _ _ hj
      refine ⟨?_, ?_, ?_, ?_, ?_⟩
      · show (closeEv s i).inputs.length = (closeEv s i).num_inputs
        simp [closeEv, hInv.len_inputs]
      · rcases hInv.len_last with hL | ⟨ho2, hall⟩
        · exact Or.inl hL
        · right
          refine ⟨ho2, ?_⟩
          intro q hq
          simp only [closeEv] at hq
          rcases List.mem_or_eq_of_mem_set hq with hq' | hq'
          · exact hall _ hq'
          · have hbe : (portOf s i).buffer = [] := by
              have hmem := listGetD_mem s.inputs i defaultPort hset_len
              have heq2 := hall _ hmem
              simp only [portOf]
              rw [heq2]
            rw [hq', hbe]
      · intro j hj hlive
        have hj' : j < s.num_inputs := hj
        by_cases hji : j = i
        · subst hji
          have hne : (portOf s j).buffer.isEmpty = false := by
            have hlive2 : isFinishedPort (portOf (closeEv s j) j) = false := hlive
            rw [hporti'] at hlive2
            simpa [isFinishedPort] using hlive2
          have hliveS : liveAt s j := by
            simp [liveAt, isFinishedPort, hne]
          show s.current_bucket - 1 ≤ lastOf s j
          exact hInv.frontier j hj' hliveS
        · show s.current_bucket - 1 ≤ lastOf s j
          apply hInv.frontier j hj'
          simpa [liveAt, hportj' j hji] using hlive
      · intro j hj
        have hj' : j < s.num_inputs := hj
        by_cases hji : j = i
        · subst hji
          show List.Pairwise (fun a b => a ≤ b)
            (lastOf s j :: bufBuckets (portOf (closeEv s j) j))
          rw [hporti']
          exact hInv.mono j hj'
        · show List.Pairwise (fun a b => a ≤ b)
            (lastOf s j :: bufBuckets (portOf (closeEv s i) j))
          rw [hportj' j hji]
          exact hInv.mono j hj'
      · intro e he g hg j hj
        exact hInv.ghosts e he g hg j hj
    · have hin : (closeEv s i).inputs = s.inputs := by
        simp only [closeEv]
        exact listSet_ge _ _ _ (by omega)
      exact inv_congr s _ hin rfl rfl rfl rfl rfl hInv
  | envAllowPush =>
    exact inv_congr s _ rfl rfl rfl rfl rfl rfl hInv
  | envFinishOutput =>
    refine ⟨hInv.len_inputs, ?_, hInv.frontier, hInv.mono, hInv.ghosts⟩
    rcases hInv.len_last with hL | ⟨-, hall⟩
    · exact Or.inl hL
    · exact Or.inr ⟨rfl, hall⟩
  | prep fuel s2 st hp =>
    exact prepare_inv fuel s hInv s' st hp
  | wrk =>
    exact work_inv split s hInv

theorem initState_inv (n : Nat) (expect : Bool) : Inv (initState n expect) := by
  refine ⟨?_, ?_, ?_, ?_, ?_⟩
  · simp [initState]
  · left
    simp [initState]
  · intro i hi hlive
    have h1 : lastOf (initState n expect) i = -1 := by
      simp only [lastOf, initState]
      exact listGetD_replicate n i (-1)
    rw [h1]
    show (0 : Int) - 1 ≤ -1
    omega
  · intro i hi
    have h1 : lastOf (initState n expect) i = -1 := by
      simp only [lastOf, initState]
      exact listGetD_replicate n i (-1)
    have h2 : portOf (initState n expect) i = defaultPort := by
      simp only [portOf, initState]
      exact listGetD_replicate n i defaultPort
    rw [h1, h2]
    simp [bufBuckets, defaultPort]
  · intro e he
    simp [initState] at he

theorem reach_inv (split : Nat → List (Int × Nat)) (n : Nat) (expect : Bool)
    (s : GState) (h : Reachable split (initState n expect) s) : Inv s := by
  induction h with
  | refl => exact initState_inv n expect
  | tail hr hstep ih => exact step_inv split _ _ ih hstep

/-- C1, completeness of routing: refuted by the code.  In the run `c1Events` the only
ingested batch (payload 7, bucket 0) is never emitted: `prepare` finishes the output
with an empty trace while the batch is still sitting in the bucket map, because the
push loop of `tryPushTwoLevelData` never reaches buckets at or above `current_bucket`
once all inputs are finished. -/
theorem grouping_completeness_dropped_batch :
    c1Final.map GState.output_finished = some true ∧
    c1Final.map GState.trace = some [] ∧
    c1Final.map (fun s => mapFind s.chunks 0) = some (some [cB 7 0]) :=
  ⟨rfl, rfl, rfl⟩

/-- C2, termination: refuted by the code.  The run `c2Events` reaches a state where
all producers are exhausted and the bucket map, single-level and overflow
accumulators are all empty, yet the next `prepare` invocation diverges for every
fuel: the loop guard `next_bucket_to_push < current_bucket || (all_inputs_finished
&& chunks.empty())` of `tryPushTwoLevelData` stays true forever on the empty map. -/
theorem grouping_termination_hangs :
    execEvs split0 c2Events (initState 1 false) = some c2state ∧
    c2state.all_inputs_finished = true ∧ c2state.chunks = [] ∧
    c2state.single_level_chunks = [] ∧ c2state.overflow_chunks = [] ∧
    c2state.output_finished = false ∧ c2state.output_can_push = true ∧
    ∀ fuel, prepare fuel c2state = PrepOutcome.hang :=
  ⟨rfl, rfl, rfl, rfl, rfl, rfl, rfl, fun _ => rfl⟩

/-- C3, release tagging: refuted by the code.  In the run `c3Events` the router
releases bucket 0 (ghost `popped = 0`, and the member list is exactly bucket 0's
accumulated batch, payload 7), but the emitted `ChunksToMerge` tag carries
`bucket_num = 2` — the value of `current_bucket` at release time — because
`pushData` is called with `current_bucket` instead of the popped bucket. -/
theorem release_tagging_wrong_bucket :
    c3Final.map GState.trace =
      some [⟨⟨0, some (ChunkInfo.ChunksToMerge [7] 2 false)⟩, some ⟨0, [5], [false]⟩⟩] ∧
    ((2 : Int) = 0 → False) :=
  ⟨rfl, by decide⟩

/-- C4, single-level correctness: refuted by the code.  In the run `c4Events` (no
producer ever supplies a bucket ≥ 0) the non-partitioned group is emitted twice —
once per `prepare` cycle — because `tryPushSingleLevelData` passes the accumulator
to `pushData` without `std::move`, so it is never emptied. -/
theorem single_level_group_duplicated :
    c4Final.map GState.trace = some
      [⟨⟨0, some (ChunkInfo.ChunksToMerge [5] (-1) false)⟩, none⟩,
       ⟨⟨0, some (ChunkInfo.ChunksToMerge [5] (-1) false)⟩, none⟩] ∧
    c4Final.map GState.single_level_chunks = some [cB 5 (-1)] :=
  ⟨rfl, rfl⟩

/-- C5, overflow ordering: refuted by the code.  In the run `c5Events` the overflow
group is emitted twice — once per `prepare` cycle — because `tryPushOverflowData`
passes the accumulator to `pushData` without `std::move`, so it is never emptied
and the "exactly once" part of the claim fails. -/
theorem overflow_group_duplicated :
    c5Final.map GState.trace = some
      [⟨⟨0, some (ChunkInfo.ChunksToMerge [6] (-1) true)⟩, none⟩,
       ⟨⟨0, some (ChunkInfo.ChunksToMerge [6] (-1) true)⟩, none⟩] ∧
    c5Final.map GState.overflow_chunks = some [cOv 6] :=
  ⟨rfl, rfl⟩

/-- C7, bucket monotonicity: refuted by the code.  In the run `c7Events` (each
producer's buckets non-decreasing: 0,5 and 1,5) the router releases buckets 0 and 1
in two groups, but both groups carry the same bucket number 3 (`current_bucket` at
release time), so the carried bucket numbers are neither strictly increasing nor
free of repetition. -/
theorem released_bucket_numbers_repeat :
    c7Final.map GState.trace = some
      [⟨⟨0, some (ChunkInfo.ChunksToMerge [1] 3 false)⟩, some ⟨0, [5, 5], [false, false]⟩⟩,
       ⟨⟨0, some (ChunkInfo.ChunksToMerge [2] 3 false)⟩, some ⟨1, [5, 5], [false, false]⟩⟩] :=
  rfl

/-- C8, fatal tag contract: confirmed.  `addChunk` succeeds exactly on chunks tagged
with `AggregatedChunkInfo` (the `PartialResultTag`) and throws otherwise, and
`bucketTransform` succeeds exactly on chunks tagged with `ChunksToMerge` (the
`MergeGroupTag`); an `Except.error` result carries no output chunk. -/
theorem fatal_tag_contract :
    (∀ (s : GState) (input : Nat) (c : Chunk),
        (exceptToOption (addChunk s c input)).isSome = specPartialTagged c) ∧
    (∀ (mergeBlocks : List Nat → Bool → Nat) (final : Bool) (c : Chunk),
        (exceptToOption (bucketTransform mergeBlocks final c)).isSome = specMergeTagged c) := by
  constructor
  · intro s input c
    match hc : c.info with
    | none => simp [addChunk, hc, specPartialTagged, exceptToOption]
    | some (ChunkInfo.ChunksToMerge ms b o) =>
        simp [addChunk, hc, specPartialTagged, exceptToOption]
    | some (ChunkInfo.AggregatedChunkInfo b o) =>
        simp only [addChunk, hc, specPartialTagged]
        split <;> [skip; split] <;> rfl
  · intro mergeBlocks final c
    match hc : c.info with
    | none => simp [bucketTransform, hc, specMergeTagged, exceptToOption]
    | some (ChunkInfo.ChunksToMerge ms b o) =>
        simp [bucketTransform, hc, specMergeTagged, exceptToOption]
    | some (ChunkInfo.AggregatedChunkInfo b o) =>
        simp [bucketTransform, hc, specMergeTagged, exceptToOption]

/-- C9 (amended), cancellation cleanup: when the output port has finished, `prepare`
closes every input, clears the bucket mapping and the per-producer bucket record,
emits nothing and returns `Finished`; the single-level and overflow accumulators are
left in place (they are only freed when the operator is destroyed). -/
theorem cancellation_cleanup_amended (s : GState) (h : s.output_finished = true)
    (fuel : Nat) :
    prepOutStatus (prepare fuel s) = some Status.Finished ∧
    (prepOutState (prepare fuel s)).map GState.trace = some s.trace ∧
    (prepOutState (prepare fuel s)).map GState.inputs = some (s.inputs.map closePort) ∧
    (prepOutState (prepare fuel s)).map GState.chunks = some [] ∧
    (prepOutState (prepare fuel s)).map GState.last_bucket_number = some [] ∧
    (prepOutState (prepare fuel s)).map GState.single_level_chunks
      = some s.single_level_chunks ∧
    (prepOutState (prepare fuel s)).map GState.overflow_chunks = some s.overflow_chunks := by
  simp [prepare, h, prepOutStatus, prepOutState]

/-- C9 witness: the amended cancellation behaviour at the concrete state `c9state`. -/
theorem cancellation_cleanup_amended_witness :
    prepOutStatus (prepare 1 c9state) = some Status.Finished ∧
    (prepOutState (prepare 1 c9state)).map GState.trace = some c9state.trace ∧
    (prepOutState (prepare 1 c9state)).map GState.inputs
      = some (c9state.inputs.map closePort) ∧
    (prepOutState (prepare 1 c9state)).map GState.chunks = some [] ∧
    (prepOutState (prepare 1 c9state)).map GState.last_bucket_number = some [] ∧
    (prepOutState (prepare 1 c9state)).map GState.single_level_chunks
      = some c9state.single_level_chunks ∧
    (prepOutState (prepare 1 c9state)).map GState.overflow_chunks
      = some c9state.overflow_chunks :=
  cancellation_cleanup_amended c9state rfl 1

/-- C9 counterexample: at `c9state` (output finished, one buffered single-level batch
and one buffered overflow batch) the cancellation branch of `prepare` returns
`Finished` but releases neither the single-level nor the overflow accumulator,
contradicting the claim that it releases all three buffers. -/
theorem cancellation_overflow_retained :
    prepOutStatus (prepare 1 c9state) = some Status.Finished ∧
    (prepOutState (prepare 1 c9state)).map GState.single_level_chunks
      = some [cB 8 (-1)] ∧
    (prepOutState (prepare 1 c9state)).map GState.overflow_chunks = some [cOv 9] ∧
    ([cB 8 (-1)] ≠ ([] : List Chunk)) ∧ ([cOv 9] ≠ ([] : List Chunk)) :=
  ⟨rfl, rfl, rfl, by decide, by decide⟩

/-- C10, frontier insulation: confirmed.  `addChunk` leaves `last_bucket_number` and
the sticky `has_two_level` flag unchanged for overflow chunks and for non-partitioned
(`bucket < 0`) chunks, and updates them exactly for non-overflow chunks with
`bucket ≥ 0`. -/
theorem frontier_insulation :
    ∀ (s : GState) (c : Chunk) (input : Nat) (b : Int) (o : Bool),
      c.info = some (ChunkInfo.AggregatedChunkInfo b o) →
      ((o = true ∨ b < 0) →
        (exceptToOption (addChunk s c input)).map GState.last_bucket_number
            = some s.last_bucket_number ∧
        (exceptToOption (addChunk s c input)).map GState.has_two_level
            = some s.has_two_level) ∧
      (o = false → 0 ≤ b →
        (exceptToOption (addChunk s c input)).map GState.last_bucket_number
            = some (s.last_bucket_number.set input b) ∧
        (exceptToOption (addChunk s c input)).map GState.has_two_level = some true) := by
  intro s c input b o htag
  constructor
  · rintro (ho | hb)
    · subst ho; simp [addChunk, htag, exceptToOption]
    · cases o with
      | true => simp [addChunk, htag, exceptToOption]
      | false => simp [addChunk, htag, exceptToOption, hb]
  · intro ho hb
    subst ho
    simp [addChunk, htag, exceptToOption, Int.not_lt.mpr hb]

/-- C10 witness: an overflow chunk at a concrete state leaves the per-producer
record and the two-level flag unchanged. -/
theorem frontier_insulation_witness :
    (exceptToOption (addChunk (initState 1 false) (cOv 3) 0)).map GState.last_bucket_number
        = some (initState 1 false).last_bucket_number ∧
    (exceptToOption (addChunk (initState 1 false) (cOv 3) 0)).map GState.has_two_level
        = some (initState 1 false).has_two_level :=
  (frontier_insulation (initState 1 false) (cOv 3) 0 (-1) true rfl).1 (Or.inl rfl)

/-- C6, no premature release: confirmed.  In every run from the freshly constructed
router — any interleaving of producers pushing chunks (with per-producer
non-decreasing bucket numbers, the claim's hypothesis, carried by the `envPush`
guard), producers closing, the scheduler granting output slots, `prepare` calls and
`work` calls — every released numbered bucket `g.popped` satisfies: each producer
that was live (not exhausted) at the moment of release had already reported a last
observed bucket at least `g.popped`.  The ghost record `g` snapshots
`last_bucket_number` and per-input liveness at the push. -/
theorem no_premature_release (split : Nat → List (Int × Nat)) (n : Nat) (expect : Bool)
    (s : GState) (h : Reachable split (initState n expect) s) :
    ∀ e ∈ s.trace, ∀ g, e.ghost = some g →
      ∀ i, i < s.num_inputs → g.live.getD i false = true →
        g.popped ≤ g.lasts.getD i (-1) :=
  (reach_inv split n expect s h).ghosts

/-- The run behind `c6s7` is a legal run of the machine: two producers send buckets
0,2 and 1,2 respectively, the output is granted a slot, and `prepare` runs twice,
releasing bucket 0 while both producers are still live. -/
theorem c6s7_reachable : Reachable split0 (initState 2 false) c6s7 := by
  have h1 : Step split0 c6s0 c6s1 :=
    Step.envPush c6s0 0 (cB 10 0) 0 false (by decide) (by decide) rfl (by decide)
  have h2 : Step split0 c6s1 c6s2 :=
    Step.envPush c6s1 1 (cB 11 1) 1 false (by decide) (by decide) rfl (by decide)
  have h3 : Step split0 c6s2 c6s3 :=
    Step.envPush c6s2 0 (cB 12 2) 2 false (by decide) (by decide) rfl (by decide)
  have h4 : Step split0 c6s3 c6s4 :=
    Step.envPush c6s3 1 (cB 13 2) 2 false (by decide) (by decide) rfl (by decide)
  have h5 : Step split0 c6s4 c6s5 := Step.envAllowPush c6s4
  have h6 : Step split0 c6s5 c6s6 := Step.prep c6s5 20 c6s6 Status.NeedData rfl
  have h7 : Step split0 c6s6 c6s7 := Step.prep c6s6 20 c6s7 Status.NeedData rfl
  exact Relation.ReflTransGen.tail
    (Relation.ReflTransGen.tail
      (Relation.ReflTransGen.tail
        (Relation.ReflTransGen.tail
          (Relation.ReflTransGen.tail
            (Relation.ReflTransGen.tail
              (Relation.ReflTransGen.tail Relation.ReflTransGen.refl h1) h2) h3) h4)
        h5) h6) h7

/-- C6 witness: in the concrete run `c6s7`, bucket 0 was released while both
producers were live with last observed bucket 2, and indeed 0 ≤ 2. -/
theorem no_premature_release_witness :
    (⟨0, [2, 2], [true, true]⟩ : GhostRelease).popped
      ≤ (⟨0, [2, 2], [true, true]⟩ : GhostRelease).lasts.getD 0 (-1) :=
  no_premature_release split0 2 false c6s7 c6s7_reachable
    ⟨⟨0, some (ChunkInfo.ChunksToMerge [10] 3 false)⟩, some ⟨0, [2, 2], [true, true]⟩⟩
    (by decide) ⟨0, [2, 2], [true, true]⟩ rfl 0 (by decide) (by decide)

end DB
